import Mathlib

/-!
Verification development for the meta-hybrid_mount repository.

The Rust sources under `src/` are shallowly embedded as executable Lean
definitions.  File-system content and syscall outcomes are passed in
explicitly (as record fields or oracle functions), so that the control
flow of the Rust functions becomes a pure computation on that data.
Paths are modelled as lists of components (`FPath`); machine integers as
`Nat` with explicit `% 2 ^ 8` where the Rust code does wrapping `u8`
arithmetic (release-profile semantics).
-/

namespace MetaHybrid

/-- A filesystem path, as its list of components (`/a/b` is `["a", "b"]`). -/
abbrev FPath := List String

/-- `Path::file_name`: the last component, if any. -/
def pathFileName (p : FPath) : Option String :=
  p.getLast?

/-- `Path::parent`: the path with the last component removed; `none` at the root. -/
def pathParent (p : FPath) : Option FPath :=
  match p with
  | [] => none
  | _ :: _ => some p.dropLast

/-- `executor.rs::extract_id`: `path.parent().and_then(file_name)`. -/
def extractId (p : FPath) : Option String :=
  (pathParent p).bind pathFileName

/-- `executor.rs::extract_module_root`: `partition_path.parent()`. -/
def extractModuleRoot (p : FPath) : Option FPath :=
  pathParent p

/-- Lexicographic order on character lists by code point, mirroring the byte
order Rust compares strings with. -/
def charsLe : List Char → List Char → Bool
  | [], _ => true
  | _ :: _, [] => false
  | a :: as, b :: bs => if a = b then charsLe as bs else decide (a.toNat < b.toNat)

/-- String comparison used by the sorts, on the underlying characters. -/
def strLeB (a b : String) : Bool :=
  charsLe a.data b.data

/-- Sort a list of strings ascending (`Vec::sort` on `String`). -/
def sortStrings (l : List String) : List String :=
  List.insertionSort (fun a b : String => strLeB a b = true) l

/-- Lexicographic component-wise order on paths, mirroring `PathBuf` ordering. -/
def pathLeB : FPath → FPath → Bool
  | [], _ => true
  | _ :: _, [] => false
  | a :: as, b :: bs => if a = b then pathLeB as bs else strLeB a b

/-- Sort a list of paths (`Vec::<PathBuf>::sort`). -/
def sortPaths (l : List FPath) : List FPath :=
  List.insertionSort (fun p q => pathLeB p q = true) l

/-! ## Granary + Ratoon (src/src/core/granary.rs) -/

/-- A snapshot record, `granary.rs::Silo`.  The `Config` struct is abstracted
to its serialised text since no claim inspects its fields. -/
structure Silo where
  id : String
  timestamp : Nat
  label : String
  reason : String
  configSnapshot : String
  rawConfig : Option String
  rawState : Option String
deriving Repr, DecidableEq

/-- The granary-relevant configuration (`config.granary`). -/
structure GranaryConfig where
  maxBackups : Nat
  retentionDays : Nat
deriving Repr, DecidableEq

/-- The slice of filesystem state touched by granary.rs, as explicit data:
counter-file content, parsed silo files of the granary directory, the
`/data/adb/modules` directory (`none` when absent) with its `disable`
markers, the rescue notice, and the config/state files. -/
structure GranaryFS where
  counter : Option String
  silos : List Silo
  moduleDirs : Option (List String)
  disabled : List String
  rescueNotice : Option String
  configFile : Option String
  stateFile : Option String
deriving Repr, DecidableEq

/-- `str::trim` on the character list: whitespace stripped from both ends. -/
def trimChars (l : List Char) : List Char :=
  ((l.dropWhile Char.isWhitespace).reverse.dropWhile Char.isWhitespace).reverse

/-- Strip one leading `+`, as Rust unsigned-integer parsing accepts. -/
def stripPlus (l : List Char) : List Char :=
  match l with
  | '+' :: rest => rest
  | _ => l

/-- The numeric value of an all-digit, non-empty character list; `none`
otherwise. -/
def natDigits (l : List Char) : Option Nat :=
  if l ≠ [] ∧ l.all Char.isDigit then
    some (l.foldl (fun n c => n * 10 + (c.toNat - 48)) 0)
  else none

/-- Rust `str::parse::<u8>()`: optional `+`, digits only, value at most 255. -/
def parseU8 (l : List Char) : Option Nat :=
  match natDigits (stripPlus l) with
  | some v => if v ≤ 255 then some v else none
  | none => none

/-- `content.trim().parse::<u8>().unwrap_or(0)` in `engage_ratoon_protocol`. -/
def parseCounter (content : String) : Nat :=
  (parseU8 (trimChars content.data)).getD 0

/-- The counter value before increment: 0 when the file is absent, otherwise
the parsed trimmed content (granary.rs lines 43-49). -/
def ratoonReadCount (fs : GranaryFS) : Nat :=
  match fs.counter with
  | none => 0
  | some c => parseCounter c

/-- The post-increment counter value.  `count += 1` is `u8` addition, which
wraps modulo `2 ^ 8` under release-profile semantics. -/
def ratoonPostCount (fs : GranaryFS) : Nat :=
  (ratoonReadCount fs + 1) % 256

/-- `granary.rs::list_silos`: silo files sorted by descending timestamp. -/
def listSilos (silos : List Silo) : List Silo :=
  List.insertionSort (fun a b => b.timestamp ≤ a.timestamp) silos

/-- `granary.rs::restore_silo` applied to a parsed silo: the config file gets
the raw text when present (else the re-serialised snapshot, abstracted as the
snapshot text itself), and the state file is restored when a snapshot exists. -/
def restoreSiloFs (fs : GranaryFS) (silo : Silo) : GranaryFS :=
  { fs with
    configFile := some (match silo.rawConfig with
      | some raw => raw
      | none => silo.configSnapshot)
    stateFile := match silo.rawState with
      | some st => some st
      | none => fs.stateFile }

/-- `granary.rs::restore_latest_silo`: restore the head of the sorted listing;
`none` models the `bail!("No silos found in Granary")` failure.  (File read
and JSON parse are always successful in this pure model.) -/
def restoreLatestSilo (fs : GranaryFS) : Option (GranaryFS × String) :=
  match listSilos fs.silos with
  | [] => none
  | latest :: _ => some (restoreSiloFs fs latest, latest.id)

/-- `granary.rs::disable_all_modules`: when the modules directory exists,
create a `disable` marker in every entry that lacks one. -/
def disableAllModules (fs : GranaryFS) : GranaryFS :=
  match fs.moduleDirs with
  | none => fs
  | some dirs =>
      { fs with
        disabled := dirs.foldl (fun acc d => if d ∈ acc then acc else acc ++ [d]) fs.disabled }

/-- `granary.rs::engage_ratoon_protocol` as a state transformer on the
granary filesystem slice. -/
def engageRatoonProtocol (fs : GranaryFS) : GranaryFS :=
  let count := ratoonPostCount fs
  let fs1 : GranaryFS := { fs with counter := some (toString count) }
  if 3 ≤ count then
    match restoreLatestSilo fs1 with
    | some (fs2, siloId) =>
        { fs2 with
          counter := none
          rescueNotice :=
            some ("System recovered from bootloop by restoring snapshot: " ++ siloId) }
    | none =>
        { disableAllModules fs1 with counter := none }
  else fs1

/-- `granary.rs::prune_silos`, inner loop: walk the descending-sorted listing
with its enumeration index, dropping entries the Rust loop deletes. -/
def pruneKeep (maxB retention expirationTs : Nat) : Nat → List Silo → List Silo
  | _, [] => []
  | i, s :: rest =>
      let shouldDelete :=
        (0 < maxB ∧ maxB ≤ i) ∨ (0 < retention ∧ s.timestamp < expirationTs ∧ 0 < i)
      if shouldDelete then pruneKeep maxB retention expirationTs (i + 1) rest
      else s :: pruneKeep maxB retention expirationTs (i + 1) rest

/-- `granary.rs::prune_silos`: the silos surviving one pruning pass. -/
def pruneSilos (cfg : GranaryConfig) (now : Nat) (silos : List Silo) : List Silo :=
  let expirationTs := if 0 < cfg.retentionDays then now - cfg.retentionDays * 86400 else 0
  pruneKeep cfg.maxBackups cfg.retentionDays expirationTs 0 (listSilos silos)

/-- Writing the new silo file `silo_<now>.json`; a same-named file is
overwritten. -/
def writeSilo (now : Nat) (configSnapshot : String) (rawConfig rawState : Option String)
    (silos : List Silo) : List Silo :=
  let id := "silo_" ++ toString now
  silos.filter (fun s => s.id ≠ id) ++
    [{ id := id, timestamp := now, label := "", reason := "",
       configSnapshot := configSnapshot, rawConfig := rawConfig, rawState := rawState }]

/-- `granary.rs::create_silo`: write the snapshot, then prune. -/
def createSilo (cfg : GranaryConfig) (now : Nat) (configSnapshot : String)
    (rawConfig rawState : Option String) (silos : List Silo) : List Silo :=
  pruneSilos cfg now (writeSilo now configSnapshot rawConfig rawState silos)

/-! ## Module rules (src/src/core/inventory.rs) -/

/-- `inventory.rs::MountMode`.  The `hymo` variant is *modelled from the
spec*: the enum under src/ has only `Overlay`, `Magic`, `Ignore`, but
executor.rs consumes `plan.hymo_ops` produced from Hymo-mode modules, so the
variant of the missing planner/inventory revision is added per the spec's
"default_mode == Hymo (direct injection)". -/
inductive MountMode
  | overlay
  | magic
  | ignore
  | hymo
deriving Repr, DecidableEq

/-- `inventory.rs::ModuleRules`: a default mode plus a path-to-mode map,
modelled as an association list with first-match lookup standing for the
Rust `HashMap` (whose keys are unique). -/
structure ModuleRules where
  defaultMode : MountMode
  paths : List (String × MountMode)
deriving Repr, DecidableEq

/-- `serde` `Default` for `ModuleRules`: `Overlay` default, empty map. -/
def ModuleRules.defaultRules : ModuleRules :=
  { defaultMode := .overlay, paths := [] }

/-- `HashMap::insert` at the lookup level: the new binding wins, the old
binding for the same key is dropped. -/
def pathsInsert (m : List (String × MountMode)) (k : String) (v : MountMode) :
    List (String × MountMode) :=
  (k, v) :: m.filter (fun p => p.1 ≠ k)

/-- `rules.paths.extend(user_rules.paths)`: insert every user entry into the
in-module map, later entries overriding. -/
def pathsExtend (base user : List (String × MountMode)) : List (String × MountMode) :=
  user.foldl (fun acc p => pathsInsert acc p.1 p.2) base

/-- `inventory.rs::ModuleRules::load`.  For each of the in-module and user
files the argument is `none` when the file is absent and `some none` when it
exists but fails to read or parse (both leave the rules unchanged);
`some (some r)` is a successfully parsed file. -/
def loadRules (internalFile userFile : Option (Option ModuleRules)) : ModuleRules :=
  let rules := match internalFile with
    | some (some r) => r
    | _ => ModuleRules.defaultRules
  match userFile with
  | some (some u) => { defaultMode := u.defaultMode, paths := pathsExtend rules.paths u.paths }
  | _ => rules

/-- `HashMap::get` on the association list: the first binding for the key. -/
def pathsLookup : List (String × MountMode) → String → Option MountMode
  | [], _ => none
  | (k, v) :: rest, j => if j = k then some v else pathsLookup rest j

/-- `inventory.rs::ModuleRules::get_mode`: path-specific entry first, else
the default mode. -/
def ModuleRules.getMode (r : ModuleRules) (relativePath : String) : MountMode :=
  match pathsLookup r.paths relativePath with
  | some m => m
  | none => r.defaultMode

/-! ## Planner (src/src/core/planner.rs) -/

/-- `planner.rs::OverlayOperation`. -/
structure OverlayOperation where
  partitionName : String
  target : String
  lowerdirs : List FPath
deriving Repr, DecidableEq

/-- A direct-injection operation.  Modelled from the spec: `MountPlan` under
src/ lacks the `hymo_ops` collection that executor.rs consumes; the spec
defines it as `HymoOperation { module_id, source = content_path/<part>,
target = /<part> }`. -/
structure HymoOperation where
  moduleId : String
  source : FPath
  target : FPath
deriving Repr, DecidableEq

/-- `planner.rs::MountPlan`.  The `hymoOps` and `hymoModuleIds` fields are
modelled from the spec (they are absent from the struct under src/ but are
read by executor.rs as `plan.hymo_ops` and `plan.hymo_module_ids`). -/
structure MountPlan where
  overlayOps : List OverlayOperation
  magicModulePaths : List FPath
  overlayModuleIds : List String
  magicModuleIds : List String
  hymoOps : List HymoOperation
  hymoModuleIds : List String
deriving Repr, DecidableEq

/-- `inventory.rs::Module`, as the planner consumes it. -/
structure PModule where
  id : String
  sourcePath : FPath
  rules : ModuleRules
deriving Repr, DecidableEq

/-- The filesystem facts `planner.rs::generate` queries. -/
structure PlannerEnv where
  /-- `path.exists()` for a content path. -/
  pathExists : FPath → Bool
  /-- The names of the direct entries of `read_dir(content_path)`, in
  iteration order, restricted to those with `path.is_dir()`. -/
  dirSubdirs : FPath → List String
  /-- `planner.rs::has_files`: the directory has at least one entry. -/
  hasFiles : FPath → Bool
  /-- `symlink_metadata("/<part>")` says the root partition is a symlink. -/
  rootIsSymlink : String → Bool
  /-- `Path::new("/<part>").exists()`. -/
  rootExists : String → Bool
  /-- `canonicalize("/<part>")`, `none` on failure. -/
  canonicalRoot : String → Option String
  /-- The canonicalised target `is_dir()`. -/
  canonicalIsDir : String → Bool

/-- The builtin candidate partitions, `defs.rs::BUILTIN_PARTITIONS`. -/
def builtinPartitions : List String :=
  ["system", "vendor", "product", "system_ext", "odm", "oem", "apex"]

/-- The candidate partitions: builtin list extended by the configured extras. -/
def targetPartitions (extraPartitions : List String) : List String :=
  builtinPartitions ++ extraPartitions

/-- The per-module contribution accumulated by the planner's parallel pass. -/
structure ModuleContribution where
  id : String
  overlays : List (String × FPath)
  magicPath : Option FPath
  hymoOps : List HymoOperation
deriving Repr, DecidableEq

/-- `content_path` resolution: prefer `storage_root/<id>`, falling back to
the module's source path (planner.rs lines 184-188). -/
def resolvedContent (env : PlannerEnv) (storageRoot : FPath) (m : PModule) : FPath :=
  let c := storageRoot ++ [m.id]
  if env.pathExists c then c else m.sourcePath

/-- The per-module body of `planner.rs::generate`.  The `hymo` branch is
modelled from the spec ("for each candidate partition that exists and is
non-empty under `content_path`, emit a `HymoOperation`"); the rest follows
the source's per-subdirectory `get_mode` dispatch, where a `hymo` path entry
(impossible under src/) contributes nothing, like `ignore`. -/
def moduleContribution (env : PlannerEnv) (extraPartitions : List String)
    (storageRoot : FPath) (m : PModule) : Option ModuleContribution :=
  let content := resolvedContent env storageRoot m
  if env.pathExists content then
    if m.rules.defaultMode = .hymo then
      let ops := (targetPartitions extraPartitions).filterMap fun part =>
        if env.dirSubdirs content |>.contains part then
          if env.hasFiles (content ++ [part]) then
            some { moduleId := m.id, source := content ++ [part], target := [part] }
          else none
        else none
      if ops.isEmpty then none
      else some { id := m.id, overlays := [], magicPath := none, hymoOps := ops }
    else
      let step := fun (st : List (String × FPath) × Option FPath × Bool) (dirName : String) =>
        if (targetPartitions extraPartitions).contains dirName then
          if env.hasFiles (content ++ [dirName]) then
            match m.rules.getMode dirName with
            | .overlay => (st.1 ++ [(dirName, content ++ [dirName])], st.2.1, true)
            | .magic => (st.1, some content, true)
            | .ignore => st
            | .hymo => st
          else st
        else st
      let st := (env.dirSubdirs content).foldl step ([], none, false)
      if st.2.2 then
        some { id := m.id, overlays := st.1, magicPath := st.2.1, hymoOps := [] }
      else none
  else none

/-- Insert into a string set kept as a list (`HashSet::insert`). -/
def insertId (s : List String) (x : String) : List String :=
  if x ∈ s then s else x :: s

/-- Remove from a string set kept as a list (`HashSet::remove`). -/
def removeId (s : List String) (x : String) : List String :=
  s.filter (fun y => y ≠ x)

/-- Insert into a path set kept as a list (`HashSet::insert` on `PathBuf`). -/
def insertPath (s : List FPath) (x : FPath) : List FPath :=
  if x ∈ s then s else x :: s

/-- Append `path` to the group of `part`, creating the group at the end when
absent (the `HashMap` grouping of planner.rs, determinised to insertion
order). -/
def groupAppend (groups : List (String × List FPath)) (part : String) (path : FPath) :
    List (String × List FPath) :=
  match groups with
  | [] => [(part, [path])]
  | (p, layers) :: rest =>
      if p = part then (p, layers ++ [path]) :: rest
      else (p, layers) :: groupAppend rest part path

/-- Plan finalisation for one partition group (planner.rs lines 266-301):
drop symlink, vanished, uncanonicalisable or non-directory targets. -/
def finalizeGroup (env : PlannerEnv) (part : String) (layers : List FPath) :
    Option OverlayOperation :=
  if env.rootIsSymlink part then none
  else if env.rootExists part then
    match env.canonicalRoot part with
    | some resolved =>
        if env.canonicalIsDir resolved then
          some { partitionName := part, target := resolved, lowerdirs := layers }
        else none
    | none => none
  else none

/-- The deterministic merge state of `planner.rs::generate` (lines 244-264). -/
structure PlanAccum where
  overlayGroups : List (String × List FPath)
  magicPaths : List FPath
  overlayIds : List String
  magicIds : List String
  hymoOps : List HymoOperation
  hymoIds : List String
deriving Repr, DecidableEq

/-- Fold one module's contribution into the merge state. -/
def mergeContribution (st : PlanAccum) (contrib : ModuleContribution) : PlanAccum :=
  let st1 := match contrib.magicPath with
    | some path =>
        { st with magicPaths := insertPath st.magicPaths path,
                  magicIds := insertId st.magicIds contrib.id }
    | none => st
  let st2 := contrib.overlays.foldl
    (fun st dirPath =>
      { st with overlayGroups := groupAppend st.overlayGroups dirPath.1 dirPath.2,
                overlayIds := insertId st.overlayIds contrib.id })
    st1
  if contrib.hymoOps.isEmpty then st2
  else
    { st2 with hymoOps := st2.hymoOps ++ contrib.hymoOps,
               hymoIds := insertId st2.hymoIds contrib.id }

/-- `planner.rs::generate` (with the spec-modelled Hymo branch). -/
def generate (env : PlannerEnv) (extraPartitions : List String) (modules : List PModule)
    (storageRoot : FPath) : MountPlan :=
  let contributions := modules.filterMap (moduleContribution env extraPartitions storageRoot)
  let merged := contributions.foldl mergeContribution
    { overlayGroups := [], magicPaths := [], overlayIds := [], magicIds := [],
      hymoOps := [], hymoIds := [] }
  { overlayOps := merged.overlayGroups.filterMap (fun g => finalizeGroup env g.1 g.2)
    magicModulePaths := merged.magicPaths
    overlayModuleIds := sortStrings merged.overlayIds
    magicModuleIds := sortStrings merged.magicIds
    hymoOps := merged.hymoOps
    hymoModuleIds := sortStrings merged.hymoIds }

/-! ## Conflict analysis (src/src/core/planner.rs::analyze_conflicts) -/

/-- The file type of a walked directory entry. -/
inductive FsType
  | file
  | dir
  | symlink
  | other
deriving Repr, DecidableEq

/-- One entry produced by `WalkDir::new(layer).min_depth(1)`: the path
relative to the layer root, and its type. -/
structure FsEntry where
  rel : FPath
  ftype : FsType
deriving Repr, DecidableEq

/-- The recursive walk of a lower directory, as data: the entries of each
layer path, in walk order. -/
abbrev WalkEnv := FPath → List FsEntry

/-- `planner.rs::ConflictEntry`. -/
structure ConflictEntry where
  partition : String
  relativePath : String
  contendingModules : List String
deriving Repr, DecidableEq

/-- Push a module id onto the bucket of a relative path, creating the bucket
at the end when absent (the `file_map` HashMap, determinised to insertion
order). -/
def mapPush (m : List (String × List String)) (k : String) (v : String) :
    List (String × List String) :=
  match m with
  | [] => [(k, [v])]
  | (k0, vs) :: rest =>
      if k0 = k then (k0, vs ++ [v]) :: rest
      else (k0, vs) :: mapPush rest k v

/-- The module id a layer path is attributed to:
`layer_path.parent().and_then(file_name)`, defaulting to `"UNKNOWN"`. -/
def layerModuleId (layer : FPath) : String :=
  (extractId layer).getD "UNKNOWN"

/-- The per-entry step of the file-map construction: only entries with
`file_type().is_file()` are recorded. -/
def recordStep (layer : FPath) (fm : List (String × List String)) (entry : FsEntry) :
    List (String × List String) :=
  if entry.ftype = .file then
    mapPush fm (String.intercalate "/" entry.rel) (layerModuleId layer)
  else fm

/-- Record one layer's regular files into the per-op file map
(planner.rs lines 62-80). -/
def recordLayer (walk : WalkEnv) (fileMap : List (String × List String)) (layer : FPath) :
    List (String × List String) :=
  (walk layer).foldl (recordStep layer) fileMap

/-- The conflict entries of one overlay op: relative paths contributed by
more than one layer. -/
def opConflicts (walk : WalkEnv) (op : OverlayOperation) : List ConflictEntry :=
  let fileMap := op.lowerdirs.foldl (recordLayer walk) []
  (fileMap.filter (fun kv => 1 < kv.2.length)).map
    (fun kv => { partition := op.partitionName, relativePath := kv.1,
                 contendingModules := kv.2 })

/-- The report comparator of `conflicts.sort_by`: by partition, then by
relative path. -/
def conflictLeB (a b : ConflictEntry) : Bool :=
  if a.partition = b.partition then strLeB a.relativePath b.relativePath
  else strLeB a.partition b.partition

/-- The report ordering as a relation. -/
def conflictLe (a b : ConflictEntry) : Prop :=
  conflictLeB a b = true

instance : DecidableRel conflictLe := fun a b => by
  unfold conflictLe
  infer_instance

theorem charsLe_total (a b : List Char) : charsLe a b = true ∨ charsLe b a = true := by
  induction a generalizing b with
  | nil => exact Or.inl rfl
  | cons x xs ih =>
      cases b with
      | nil => exact Or.inr rfl
      | cons y ys =>
          by_cases hxy : x = y
          · subst hxy
            simpa [charsLe] using ih ys
          · have hne : y ≠ x := fun h => hxy h.symm
            have htn : x.toNat ≠ y.toNat := by
              intro h
              exact hxy (Char.ext (UInt32.ext h))
            rcases Nat.lt_or_ge x.toNat y.toNat with h | h
            · exact Or.inl (by simp [charsLe, hxy, h])
            · have h2 : y.toNat < x.toNat := lt_of_le_of_ne h (fun e => htn e.symm)
              exact Or.inr (by simp [charsLe, hne, h2])

theorem charsLe_trans {a b c : List Char} (hab : charsLe a b = true)
    (hbc : charsLe b c = true) : charsLe a c = true := by
  induction a generalizing b c with
  | nil => rfl
  | cons x xs ih =>
      cases b with
      | nil => simp [charsLe] at hab
      | cons y ys =>
          cases c with
          | nil => simp [charsLe] at hbc
          | cons z zs =>
              by_cases hxy : x = y
              · subst hxy
                by_cases hyz : x = z
                · subst hyz
                  simp only [charsLe, if_pos rfl] at hab hbc ⊢
                  exact ih hab hbc
                · simp only [charsLe, if_pos rfl] at hab
                  simpa [charsLe, hyz] using hbc
              · by_cases hyz : y = z
                · subst hyz
                  simpa [charsLe, hxy] using hab
                · simp only [charsLe, if_neg hxy, decide_eq_true_eq] at hab
                  simp only [charsLe, if_neg hyz, decide_eq_true_eq] at hbc
                  have hxz : x.toNat < z.toNat := hab.trans hbc
                  have hne : x ≠ z := by
                    intro h
                    subst h
                    exact absurd hxz (by omega)
                  simp [charsLe, hne, hxz]

theorem charsLe_antisymm {a b : List Char} (hab : charsLe a b = true)
    (hba : charsLe b a = true) : a = b := by
  induction a generalizing b with
  | nil =>
      cases b with
      | nil => rfl
      | cons y ys => simp [charsLe] at hba
  | cons x xs ih =>
      cases b with
      | nil => simp [charsLe] at hab
      | cons y ys =>
          by_cases hxy : x = y
          · subst hxy
            simp only [charsLe, if_pos rfl] at hab hba
            exact congrArg (x :: ·) (ih hab hba)
          · have hyx : y ≠ x := fun h => hxy h.symm
            simp only [charsLe, if_neg hxy, decide_eq_true_eq] at hab
            simp only [charsLe, if_neg hyx, decide_eq_true_eq] at hba
            omega

theorem strLeB_total (a b : String) : strLeB a b = true ∨ strLeB b a = true :=
  charsLe_total a.data b.data

theorem strLeB_trans {a b c : String} (hab : strLeB a b = true)
    (hbc : strLeB b c = true) : strLeB a c = true :=
  charsLe_trans hab hbc

theorem strLeB_antisymm {a b : String} (hab : strLeB a b = true)
    (hba : strLeB b a = true) : a = b := by
  cases a with
  | mk da =>
      cases b with
      | mk db => exact congrArg String.mk (charsLe_antisymm hab hba)

instance : IsTotal ConflictEntry conflictLe := by
  constructor
  intro a b
  unfold conflictLe conflictLeB
  by_cases h : a.partition = b.partition
  · have h2 : b.partition = a.partition := h.symm
    rcases strLeB_total a.relativePath b.relativePath with hle | hle
    · exact Or.inl (by simp [h, hle])
    · exact Or.inr (by simp [h2, hle])
  · have h2 : b.partition ≠ a.partition := fun e => h e.symm
    rcases strLeB_total a.partition b.partition with hle | hle
    · exact Or.inl (by simp [h, hle])
    · exact Or.inr (by simp [h2, hle])

instance : IsTrans ConflictEntry conflictLe := by
  constructor
  intro a b c hab hbc
  unfold conflictLe conflictLeB at hab hbc ⊢
  by_cases h1 : a.partition = b.partition
  · by_cases h2 : b.partition = c.partition
    · have h3 : a.partition = c.partition := h1.trans h2
      rw [if_pos h1] at hab
      rw [if_pos h2] at hbc
      rw [if_pos h3]
      exact strLeB_trans hab hbc
    · have h3 : a.partition ≠ c.partition := fun e => h2 (h1 ▸ e)
      rw [if_neg h2] at hbc
      rw [if_neg h3, h1]
      exact hbc
  · by_cases h2 : b.partition = c.partition
    · have h3 : a.partition ≠ c.partition := fun e => h1 (e.trans h2.symm)
      rw [if_neg h1] at hab
      rw [if_neg h3, ← h2]
      exact hab
    · rw [if_neg h1] at hab
      rw [if_neg h2] at hbc
      by_cases h3 : a.partition = c.partition
      · exfalso
        rw [h3] at hab
        exact h1 (h3.trans (strLeB_antisymm hbc hab).symm)
      · rw [if_neg h3]
        exact strLeB_trans hab hbc

/-- `planner.rs::MountPlan::analyze_conflicts`: collect each op's conflict
entries, then sort by `(partition, relative_path)`. -/
def analyzeConflicts (plan : MountPlan) (walk : WalkEnv) : List ConflictEntry :=
  List.insertionSort conflictLe (plan.overlayOps.flatMap (opConflicts walk))

/-! ## Executor (src/src/core/executor.rs::execute) -/

/-- The outcomes of the syscalls and kernel probes `execute` performs, as
oracles: HymoFS availability, per-injection success, per-overlay-op mount
success (indexed by position in the merged op list), root-partition
existence for fallback synthesis, and the success of the magic-mount phase
(whose internals are behind `magic::mount_partitions`). -/
structure ExecEnv where
  hymoAvailable : Bool
  injectOk : HymoOperation → Bool
  mountOk : Nat → Bool
  partExists : String → Bool
  magicOk : Bool

/-- `executor.rs::ExecutionResult`. -/
structure ExecutionResult where
  overlayModuleIds : List String
  hymoModuleIds : List String
  magicModuleIds : List String
deriving Repr, DecidableEq

/-- `executor.rs::PendingOverlayItem`. -/
structure PendingItem where
  source : FPath
  partitionName : String
deriving Repr, DecidableEq

/-- `op.target.file_name()` with the `"unknown"` default of Phase 1. -/
def partNameOfTarget (t : FPath) : String :=
  (pathFileName t).getD "unknown"

/-- The hymo ops that fail in Phase 1 (all of them when HymoFS is missing). -/
def failingHymoOps (env : ExecEnv) (ops : List HymoOperation) : List HymoOperation :=
  if env.hymoAvailable then ops.filter (fun op => ¬ env.injectOk op) else ops

/-- The fallback queue built by Phase 1. -/
def hymoFallbacks (env : ExecEnv) (ops : List HymoOperation) : List PendingItem :=
  (failingHymoOps env ops).map
    (fun op => { source := op.source, partitionName := partNameOfTarget op.target })

/-- Prepend `src` to the lowerdirs of the first op for `part`, if any
(executor.rs line 165-166). -/
def prependToPartition : List OverlayOperation → String → FPath →
    Option (List OverlayOperation)
  | [], _, _ => none
  | op :: rest, part, src =>
      if op.partitionName = part then
        some ({ op with lowerdirs := src :: op.lowerdirs } :: rest)
      else
        (prependToPartition rest part src).map (fun ops => op :: ops)

/-- The Phase 2 / Phase 3 mutable state. -/
structure ExecState where
  mergedOps : List OverlayOperation
  magicQueue : List FPath
  overlaySet : List String
deriving Repr, DecidableEq

/-- One Phase 2 step: merge a fallback item into an existing overlay op,
synthesise a fresh op when the root partition exists, or push the module
root into the magic queue; in all cases record the module id as overlay
(executor.rs lines 164-185). -/
def phase2Step (env : ExecEnv) (st : ExecState) (item : PendingItem) : ExecState :=
  let st1 := match prependToPartition st.mergedOps item.partitionName item.source with
    | some ops2 => { st with mergedOps := ops2 }
    | none =>
        if env.partExists item.partitionName then
          { st with mergedOps := st.mergedOps ++
              [{ partitionName := item.partitionName,
                 target := "/" ++ item.partitionName,
                 lowerdirs := [item.source] }] }
        else
          match extractModuleRoot item.source with
          | some root => { st with magicQueue := st.magicQueue ++ [root] }
          | none => st
  match extractId item.source with
  | some id => { st1 with overlaySet := insertId st1.overlaySet id }
  | none => st1

/-- Phase 3 over the merged ops: a failed mount contributes every layer's
module root to the magic queue and removes every layer's module id from the
overlay set (executor.rs lines 189-245; the success records only feed the
abstracted magic phase). -/
def phase3 (env : ExecEnv) : Nat → List OverlayOperation → List FPath × List String
  | _, [] => ([], [])
  | i, op :: rest =>
      let tail := phase3 env (i + 1) rest
      if env.mountOk i then tail
      else
        (op.lowerdirs.filterMap extractModuleRoot ++ tail.1,
         op.lowerdirs.filterMap
           (fun l => match extractModuleRoot l with
             | some _ => extractId l
             | none => none) ++ tail.2)

/-- The hymo id set after Phase 1: the plan's set minus every failing op's
module id. -/
def execHymoSet (plan : MountPlan) (env : ExecEnv) : List String :=
  (failingHymoOps env plan.hymoOps).foldl
    (fun s op => removeId s op.moduleId) plan.hymoModuleIds

/-- The state after Phase 2: the initial plan state folded over the hymo
fallback queue. -/
def execState1 (plan : MountPlan) (env : ExecEnv) : ExecState :=
  (hymoFallbacks env plan.hymoOps).foldl (phase2Step env)
    { mergedOps := plan.overlayOps, magicQueue := plan.magicModulePaths,
      overlaySet := plan.overlayModuleIds }

/-- The Phase 3 results (magic roots and fallback ids of failed mounts). -/
def execPhase3 (plan : MountPlan) (env : ExecEnv) : List FPath × List String :=
  phase3 env 0 (execState1 plan env).mergedOps

/-- The overlay id set after Phase 3's removals. -/
def execOverlaySet (plan : MountPlan) (env : ExecEnv) : List String :=
  (execPhase3 plan env).2.foldl removeId (execState1 plan env).overlaySet

/-- The sorted, deduplicated magic queue entering Phase 4. -/
def execMagicQueue (plan : MountPlan) (env : ExecEnv) : List FPath :=
  (sortPaths ((execState1 plan env).magicQueue ++ (execPhase3 plan env).1)).dedup

/-- The magic id list: the queue's module directory names, cleared when the
magic phase fails critically. -/
def execMagicIds (plan : MountPlan) (env : ExecEnv) : List String :=
  if (execMagicQueue plan env).isEmpty then []
  else if env.magicOk then (execMagicQueue plan env).filterMap pathFileName
  else []

/-- `executor.rs::execute` as a function of the plan and the syscall
oracles.  Early `Err` exits (tempdir selection) are outside the model: the
claims speak about completed executions. -/
def execute (plan : MountPlan) (env : ExecEnv) : ExecutionResult :=
  { overlayModuleIds := sortStrings (execOverlaySet plan env)
    hymoModuleIds := sortStrings (execHymoSet plan env)
    magicModuleIds := (sortStrings (execMagicIds plan env)).dedup }

/-! ## Magic mount (src/src/magic_mount/mod.rs::do_magic_mount) -/

/-- `node.rs::NodeFileType`. -/
inductive NodeFileType
  | regularFile
  | directory
  | symlink
  | whiteout
deriving Repr, DecidableEq

/-- The per-child data the tmpfs-decision loop reads and writes. -/
structure ChildNode where
  fileType : NodeFileType
  skip : Bool
deriving Repr, DecidableEq

/-- The current `Node` as the Directory branch of `do_magic_mount` sees it:
its optional module source, the `.replace` flag, and its children keyed by
name (the `HashMap` iteration determinised to list order). -/
structure DirNode where
  modulePath : Option FPath
  replace : Bool
  children : List (String × ChildNode)
deriving Repr, DecidableEq

/-- The host filesystem facts the decision loop queries, per child name:
`real_path.exists()` (follows symlinks) and `real_path.symlink_metadata()`
mapped through `NodeFileType::from_file_type(..).unwrap_or(Whiteout)`
(`none` when the lstat fails). -/
structure HostEnv where
  hostExists : String → Bool
  hostLstat : String → Option NodeFileType
deriving Inhabited

/-- Whether a child forces a tmpfs synthesis (magic_mount/mod.rs lines
190-199): a symlink child; a whiteout child whose host path exists;
otherwise a mismatch between the host's lstat type and the node type (a
failed lstat counts as a mismatch). -/
def needTmpfs (env : HostEnv) (name : String) (c : ChildNode) : Bool :=
  match c.fileType with
  | .symlink => true
  | .whiteout => env.hostExists name
  | ft =>
      match env.hostLstat name with
      | some hft => hft ≠ ft ∨ hft = .symlink
      | none => true

/-- The child-inspection loop (magic_mount/mod.rs lines 188-214): on a child
that needs a tmpfs, either mark it `skip` and continue (no module source) or
set `create_tmpfs` and break. -/
def markLoop (env : HostEnv) (modulePath : Option FPath) :
    List (String × ChildNode) → List (String × ChildNode) × Bool
  | [] => ([], false)
  | (n, c) :: rest =>
      if needTmpfs env n c then
        match modulePath with
        | none =>
            let tail := markLoop env modulePath rest
            ((n, { c with skip := true }) :: tail.1, tail.2)
        | some _ => ((n, c) :: rest, true)
      else
        let tail := markLoop env modulePath rest
        ((n, c) :: tail.1, tail.2)

/-- The Directory branch of `do_magic_mount` up to the `create_tmpfs`
decision (magic_mount/mod.rs lines 185-215): returns the children with their
final `skip` flags together with `create_tmpfs`. -/
def markChildren (env : HostEnv) (node : DirNode) (hasTmpfs : Bool) :
    List (String × ChildNode) × Bool :=
  let ct0 := ¬ hasTmpfs ∧ node.replace ∧ node.modulePath.isSome
  if hasTmpfs ∨ ct0 then (node.children, decide ct0)
  else markLoop env node.modulePath node.children

/-! ## Overlay driver (src/src/mount/overlay.rs::mount_overlay) -/

/-- The mount-namespace effects `mount_overlay` can perform that the claims
observe. -/
inductive OvAction
  | mountRoot (target : String)
  | unmountTarget (target : String)
deriving Repr, DecidableEq

/-- The syscall outcomes `mount_overlay` depends on: whether the chdir and
the root overlayfs mount succeed, whether a child's stock root still exists
under `.`, and the result of `mount_overlay_child` for each child
mountpoint (that helper absorbs its own internal fallbacks; only its
`Result` reaches `mount_overlay`). -/
structure OverlayEnv where
  chdirOk : Bool
  rootMountOk : Bool
  childStockExists : String → Bool
  childResult : String → Except String Unit

/-- The error content of a child result. -/
def errOf (r : Except String Unit) : Option String :=
  match r with
  | .error e => some e
  | .ok _ => none

/-- The child loop of `mount_overlay` (overlay.rs lines 184-203): children
whose stock root vanished are skipped; the first child error unmounts the
parent overlay unless `disable_umount` is set, then propagates. -/
def childLoop (env : OverlayEnv) (target : String) (disableUmount : Bool)
    (acc : List OvAction) : List String → List OvAction × Except String Unit
  | [] => (acc, .ok ())
  | mp :: rest =>
      if env.childStockExists mp then
        match env.childResult mp with
        | .ok _ => childLoop env target disableUmount acc rest
        | .error e =>
            (acc ++ (if disableUmount then [] else [.unmountTarget target]), .error e)
      else childLoop env target disableUmount acc rest

/-- `overlay.rs::mount_overlay`: chdir to the target, mount the root
overlay, then process the (pre-sorted, deduplicated) child mountpoints. -/
def mountOverlay (env : OverlayEnv) (target : String) (childMounts : List String)
    (disableUmount : Bool) : List OvAction × Except String Unit :=
  if ¬ env.chdirOk then ([], .error "failed to chdir")
  else if ¬ env.rootMountOk then ([], .error "mount overlayfs for root failed")
  else childLoop env target disableUmount [.mountRoot target] childMounts

/-! ## Supporting lemmas -/

theorem mem_foldl_insertAppend (l acc : List String) (d : String)
    (h : d ∈ l ∨ d ∈ acc) :
    d ∈ l.foldl (fun acc x => if x ∈ acc then acc else acc ++ [x]) acc := by
  induction l generalizing acc with
  | nil => simpa using h.resolve_left (by simp)
  | cons x xs ih =>
      simp only [List.foldl_cons]
      apply ih
      by_cases hx : x ∈ acc
      · rw [if_pos hx]
        rcases h with h | h
        · rcases List.mem_cons.mp h with rfl | h2
          · exact Or.inr hx
          · exact Or.inl h2
        · exact Or.inr h
      · rw [if_neg hx]
        rcases h with h | h
        · rcases List.mem_cons.mp h with rfl | h2
          · exact Or.inr (by simp)
          · exact Or.inl h2
        · exact Or.inr (by simp [h])

theorem pruneKeep_length_le (maxB retention exp : Nat) (hmax : 0 < maxB) :
    ∀ (l : List Silo) (i : Nat), (pruneKeep maxB retention exp i l).length ≤ maxB - i := by
  intro l
  induction l with
  | nil =>
      intro i
      simp [pruneKeep]
  | cons s rest ih =>
      intro i
      unfold pruneKeep
      by_cases hdel : (0 < maxB ∧ maxB ≤ i) ∨ (0 < retention ∧ s.timestamp < exp ∧ 0 < i)
      · rw [if_pos hdel]
        have := ih (i + 1)
        omega
      · rw [if_neg hdel]
        have hi : i < maxB := by
          by_contra hge
          exact hdel (Or.inl ⟨hmax, by omega⟩)
        have := ih (i + 1)
        simp only [List.length_cons]
        omega

/-! ## Claim theorems -/

/-- Claim C2: in `engage_ratoon_protocol`, when the post-increment counter is
at least 3 and restoring the latest silo fails, a `disable` marker is created
in every module directory and the counter file is deleted afterwards, even in
this failure branch.  (In the pure model the restore fails exactly when the
granary holds no silo.) -/
theorem ratoon_failure_branch_disables_and_clears (fs : GranaryFS)
    (h3 : 3 ≤ ratoonPostCount fs) (hempty : fs.silos = []) :
    (∀ d ∈ fs.moduleDirs.getD [], d ∈ (engageRatoonProtocol fs).disabled) ∧
    (engageRatoonProtocol fs).counter = none := by
  have hres : engageRatoonProtocol fs =
      { disableAllModules { fs with counter := some (toString (ratoonPostCount fs)) } with
          counter := none } := by
    unfold engageRatoonProtocol
    rw [if_pos h3]
    unfold restoreLatestSilo
    simp [listSilos, hempty]
  rw [hres]
  refine ⟨?_, rfl⟩
  intro d hd
  cases hmd : fs.moduleDirs with
  | none => simp [hmd] at hd
  | some dirs =>
      simp only [hmd, Option.getD_some] at hd
      unfold disableAllModules
      simp only [hmd]
      exact mem_foldl_insertAppend dirs fs.disabled d (Or.inl hd)

/-- A state in which the third boot is reached with an empty granary. -/
def fsThirdBoot : GranaryFS :=
  { counter := some "2", silos := [], moduleDirs := some ["m1", "m2"], disabled := [],
    rescueNotice := none, configFile := none, stateFile := none }

/-- Witness for claim C2 at a concrete state. -/
theorem ratoon_failure_branch_disables_and_clears_witness :
    (∀ d ∈ fsThirdBoot.moduleDirs.getD [], d ∈ (engageRatoonProtocol fsThirdBoot).disabled) ∧
    (engageRatoonProtocol fsThirdBoot).counter = none :=
  ratoon_failure_branch_disables_and_clears fsThirdBoot (by decide) rfl

/-- Claim C3: after a `create_silo` (which always runs pruning), the granary
holds at most `max_backups` silos whenever `max_backups > 0`; and the newest
silo — the head of the descending-timestamp listing — is never deleted by
pruning, whatever `max_backups` and `retention_days` are. -/
theorem granary_prune_bound_and_newest (cfg : GranaryConfig) (now : Nat)
    (cs : String) (rc rs : Option String) (g : List Silo) :
    (0 < cfg.maxBackups →
      (createSilo cfg now cs rc rs g).length ≤ cfg.maxBackups) ∧
    (∀ (silos rest : List Silo) (s : Silo),
      listSilos silos = s :: rest → s ∈ pruneSilos cfg now silos) := by
  constructor
  · intro hmax
    unfold createSilo pruneSilos
    have h := pruneKeep_length_le cfg.maxBackups cfg.retentionDays
      (if 0 < cfg.retentionDays then now - cfg.retentionDays * 86400 else 0) hmax
      (listSilos (writeSilo now cs rc rs g)) 0
    simpa using h
  · intro silos rest s hsort
    unfold pruneSilos
    rw [hsort]
    unfold pruneKeep
    have hno : ¬ ((0 < cfg.maxBackups ∧ cfg.maxBackups ≤ 0) ∨
        (0 < cfg.retentionDays ∧ s.timestamp <
          (if 0 < cfg.retentionDays then now - cfg.retentionDays * 86400 else 0) ∧ 0 < 0)) := by
      rintro (⟨h1, h2⟩ | ⟨_, _, h3⟩)
      · omega
      · omega
    rw [if_neg hno]
    simp

/-- A two-silo granary for the C3 witness. -/
def siloOld : Silo :=
  { id := "silo_5", timestamp := 5, label := "", reason := "",
    configSnapshot := "", rawConfig := none, rawState := none }

/-- The single-backup configuration for the C3 witness. -/
def cfgOneBackup : GranaryConfig :=
  { maxBackups := 1, retentionDays := 0 }

/-- Witness for claim C3 at a concrete granary. -/
theorem granary_prune_bound_and_newest_witness :
    (createSilo cfgOneBackup 9 "c" none none [siloOld]).length ≤ 1 ∧
    siloOld ∈ pruneSilos cfgOneBackup 9 [siloOld] := by
  have h := granary_prune_bound_and_newest cfgOneBackup 9 "c" none none [siloOld]
  exact ⟨h.1 (by decide), h.2 [siloOld] [] siloOld (by decide)⟩

/-- Claim C9: the Ratoon counter is parsed as a `u8`, any unparsable content
(including numeric strings above 255) reads as 0, and the increment wraps
modulo `2 ^ 8`: a file holding exactly `"255"` is written back as `"0"` and
the restore threshold is not triggered on that run. -/
theorem ratoon_counter_u8 :
    (∀ s : String, parseU8 (trimChars s.data) = none → parseCounter s = 0) ∧
    (∀ (s : String) (v : Nat), natDigits (stripPlus (trimChars s.data)) = some v →
      255 < v → parseCounter s = 0) ∧
    (∀ fs : GranaryFS, fs.counter = some "255" →
      engageRatoonProtocol fs = { fs with counter := some "0" }) := by
  refine ⟨?_, ?_, ?_⟩
  · intro s h
    unfold parseCounter
    rw [h]
    rfl
  · intro s v h hv
    unfold parseCounter parseU8
    rw [h]
    have hle : ¬ v ≤ 255 := by omega
    simp [hle]
  · intro fs hc
    have hcount : ratoonPostCount fs = 0 := by
      unfold ratoonPostCount ratoonReadCount
      rw [hc]
      decide
    unfold engageRatoonProtocol
    rw [hcount]
    rfl

/-- A state whose counter file holds exactly `"255"`. -/
def fsWrap : GranaryFS :=
  { counter := some "255", silos := [siloOld], moduleDirs := some ["m1"], disabled := [],
    rescueNotice := none, configFile := none, stateFile := none }

/-- Witness for claim C9 at concrete strings and a concrete state. -/
theorem ratoon_counter_u8_witness :
    parseCounter "boot" = 0 ∧ parseCounter "300" = 0 ∧
    engageRatoonProtocol fsWrap = { fsWrap with counter := some "0" } :=
  ⟨ratoon_counter_u8.1 "boot" (by decide),
   ratoon_counter_u8.2.1 "300" 300 (by decide) (by decide),
   ratoon_counter_u8.2.2 fsWrap rfl⟩

theorem pathsLookup_filterNe (m : List (String × MountMode)) (k j : String) :
    pathsLookup (m.filter (fun p => p.1 ≠ k)) j = if j = k then none else pathsLookup m j := by
  induction m with
  | nil => by_cases hj : j = k <;> simp [pathsLookup, hj]
  | cons p rest ih =>
      by_cases hp : p.1 = k
      · have hfilter : ¬ (p.1 ≠ k) := by simpa using hp
        rw [List.filter_cons, if_neg (by simpa using hfilter)]
        rw [ih]
        by_cases hj : j = k
        · simp [hj]
        · have hjp : j ≠ p.1 := fun e => hj (e.trans hp)
          simp [hj, pathsLookup, hjp]
      · rw [List.filter_cons, if_pos (by simpa using hp)]
        by_cases hj : j = p.1
        · have hjk : j ≠ k := fun e => hp (hj ▸ e)
          simp [pathsLookup, hj, hjk, hp]
        · simp only [pathsLookup, if_neg hj]
          exact ih

theorem pathsLookup_insert (m : List (String × MountMode)) (k : String) (v : MountMode)
    (j : String) :
    pathsLookup (pathsInsert m k v) j = if j = k then some v else pathsLookup m j := by
  unfold pathsInsert
  by_cases hj : j = k
  · simp [pathsLookup, hj]
  · simp only [pathsLookup, if_neg hj]
    rw [pathsLookup_filterNe, if_neg hj]

theorem pathsLookup_none_of_not_key (l : List (String × MountMode)) (k : String)
    (h : k ∉ l.map Prod.fst) : pathsLookup l k = none := by
  induction l with
  | nil => rfl
  | cons p rest ih =>
      simp only [List.map_cons, List.mem_cons] at h
      push_neg at h
      simp [pathsLookup, h.1, ih h.2]

theorem pathsLookup_extend (base user : List (String × MountMode))
    (hnd : (user.map Prod.fst).Nodup) (j : String) :
    pathsLookup (pathsExtend base user) j = ((pathsLookup user j).or (pathsLookup base j)) := by
  induction user generalizing base with
  | nil => simp [pathsExtend, pathsLookup]
  | cons p rest ih =>
      obtain ⟨pk, pv⟩ := p
      simp only [List.map_cons, List.nodup_cons] at hnd
      have hstep : pathsExtend base ((pk, pv) :: rest) = pathsExtend (pathsInsert base pk pv) rest := by
        simp [pathsExtend]
      rw [hstep, ih (pathsInsert base pk pv) hnd.2]
      rw [pathsLookup_insert]
      by_cases hj : j = pk
      · have hrest : pathsLookup rest j = none := by
          apply pathsLookup_none_of_not_key
          rw [hj]
          exact hnd.1
        rw [if_pos hj, hrest]
        simp [pathsLookup, hj]
      · rw [if_neg hj]
        have hcons : pathsLookup ((pk, pv) :: rest) j = pathsLookup rest j := by
          simp [pathsLookup, hj]
        rw [hcons]

/-- Claim C8: `ModuleRules::load` takes the user file's `default_mode` over
the in-module one, and merges the user path entries on top of the in-module
entries, the user entry winning on every colliding key.  (The user map's
keys are unique, as a parsed JSON map.) -/
theorem rules_user_override (internal user : ModuleRules)
    (hnd : (user.paths.map Prod.fst).Nodup) :
    (loadRules (some (some internal)) (some (some user))).defaultMode = user.defaultMode ∧
    ∀ k, pathsLookup (loadRules (some (some internal)) (some (some user))).paths k =
      ((pathsLookup user.paths k).or (pathsLookup internal.paths k)) := by
  refine ⟨rfl, ?_⟩
  intro k
  exact pathsLookup_extend internal.paths user.paths hnd k

/-- An in-module rules file for the C8 witness. -/
def rulesInternal : ModuleRules :=
  { defaultMode := .overlay, paths := [("system", .overlay), ("vendor", .magic)] }

/-- A user-override rules file for the C8 witness. -/
def rulesUser : ModuleRules :=
  { defaultMode := .magic, paths := [("vendor", .ignore)] }

/-- Witness for claim C8 at concrete rule files, including a colliding key. -/
theorem rules_user_override_witness :
    (loadRules (some (some rulesInternal)) (some (some rulesUser))).defaultMode =
      rulesUser.defaultMode ∧
    pathsLookup (loadRules (some (some rulesInternal)) (some (some rulesUser))).paths "vendor" =
      ((pathsLookup rulesUser.paths "vendor").or (pathsLookup rulesInternal.paths "vendor")) :=
  ⟨(rules_user_override rulesInternal rulesUser (by decide)).1,
   (rules_user_override rulesInternal rulesUser (by decide)).2 "vendor"⟩

theorem foldl_recordStep_filter (layer : FPath) (l : List FsEntry)
    (fm : List (String × List String)) :
    (l.filter (fun e => e.ftype = .file)).foldl (recordStep layer) fm =
      l.foldl (recordStep layer) fm := by
  induction l generalizing fm with
  | nil => rfl
  | cons e rest ih =>
      by_cases he : e.ftype = .file
      · rw [List.filter_cons, if_pos (by simpa using he)]
        simp only [List.foldl_cons]
        exact ih _
      · rw [List.filter_cons, if_neg (by simpa using he)]
        rw [ih]
        simp only [List.foldl_cons]
        rw [show recordStep layer fm e = fm from by simp [recordStep, he]]

theorem recordLayer_filter_files (walk : WalkEnv) (layer : FPath)
    (fm : List (String × List String)) :
    recordLayer (fun p => (walk p).filter (fun e => e.ftype = .file)) fm layer =
      recordLayer walk fm layer := by
  show ((walk layer).filter (fun e => e.ftype = .file)).foldl (recordStep layer) fm =
    (walk layer).foldl (recordStep layer) fm
  exact foldl_recordStep_filter layer (walk layer) fm

theorem foldl_recordLayer_nil (walk : WalkEnv) (hempty : ∀ p, walk p = [])
    (layers : List FPath) (fm : List (String × List String)) :
    layers.foldl (recordLayer walk) fm = fm := by
  induction layers generalizing fm with
  | nil => rfl
  | cons l rest ih =>
      have hone : recordLayer walk fm l = fm := by
        unfold recordLayer
        rw [hempty l]
        rfl
      simp only [List.foldl_cons, hone]
      exact ih _

theorem foldl_recordLayer_filter (walk : WalkEnv) (layers : List FPath)
    (fm : List (String × List String)) :
    layers.foldl (recordLayer (fun p => (walk p).filter (fun e => e.ftype = .file))) fm =
      layers.foldl (recordLayer walk) fm := by
  induction layers generalizing fm with
  | nil => rfl
  | cons l rest ih =>
      simp only [List.foldl_cons, recordLayer_filter_files]
      exact ih _

theorem opConflicts_filter_files (walk : WalkEnv) (op : OverlayOperation) :
    opConflicts (fun p => (walk p).filter (fun e => e.ftype = .file)) op =
      opConflicts walk op := by
  unfold opConflicts
  rw [foldl_recordLayer_filter]

/-- Claim C10: `analyze_conflicts` records only regular files when walking
the lower directories — removing every non-regular-file entry from the walk
leaves the report unchanged, and a walk with no regular files at all yields
an empty report. -/
theorem conflicts_only_regular_files (plan : MountPlan) (walk : WalkEnv) :
    analyzeConflicts plan (fun p => (walk p).filter (fun e => e.ftype = .file)) =
      analyzeConflicts plan walk ∧
    ((∀ p, (walk p).filter (fun e => e.ftype = .file) = []) →
      analyzeConflicts plan walk = []) := by
  have hfun : opConflicts (fun p => (walk p).filter (fun e => e.ftype = .file)) =
      opConflicts walk :=
    funext (opConflicts_filter_files walk)
  have hinv : analyzeConflicts plan (fun p => (walk p).filter (fun e => e.ftype = .file)) =
      analyzeConflicts plan walk := by
    unfold analyzeConflicts
    rw [hfun]
  refine ⟨hinv, ?_⟩
  intro hz
  rw [← hinv]
  unfold analyzeConflicts
  have hops : ∀ ops : List OverlayOperation,
      ops.flatMap (opConflicts (fun p => (walk p).filter (fun e => e.ftype = .file))) = [] := by
    intro ops
    induction ops with
    | nil => rfl
    | cons op rest ih =>
        have hop : opConflicts (fun p => (walk p).filter (fun e => e.ftype = .file)) op = [] := by
          unfold opConflicts
          rw [foldl_recordLayer_nil _ hz]
          rfl
        simp [List.flatMap_cons, hop, ih]
  rw [hops]
  rfl

/-- A plan and a walk with only non-regular entries, for the C10 witness. -/
def planDirsOnly : MountPlan :=
  { overlayOps := [{ partitionName := "system", target := "/system",
                     lowerdirs := [["st", "a", "system"], ["st", "b", "system"]] }],
    magicModulePaths := [], overlayModuleIds := ["a", "b"], magicModuleIds := [],
    hymoOps := [], hymoModuleIds := [] }

/-- A walk in which every entry is a directory or symlink. -/
def walkDirsOnly : WalkEnv := fun _ =>
  [{ rel := ["app"], ftype := .dir }, { rel := ["lib"], ftype := .symlink }]

/-- Witness for claim C10: shared non-file entries produce no conflicts. -/
theorem conflicts_only_regular_files_witness :
    analyzeConflicts planDirsOnly walkDirsOnly = [] :=
  (conflicts_only_regular_files planDirsOnly walkDirsOnly).2 (fun _ => rfl)

/-- The S4 plan: one overlay op on `/system` with the lower directories of
modules `a` and `b`. -/
def planS4 : MountPlan :=
  { overlayOps := [{ partitionName := "system", target := "/system",
                     lowerdirs := [["st", "a", "system"], ["st", "b", "system"]] }],
    magicModulePaths := [], overlayModuleIds := ["a", "b"], magicModuleIds := [],
    hymoOps := [], hymoModuleIds := [] }

/-- The S4 walk: both lower directories ship the regular file `app/Foo.apk`. -/
def walkS4 : WalkEnv := fun p =>
  if p = ["st", "a", "system"] ∨ p = ["st", "b", "system"] then
    [{ rel := ["app"], ftype := .dir }, { rel := ["app", "Foo.apk"], ftype := .file }]
  else []

/-- Claim C5: on the S4 plan, `analyze_conflicts` returns exactly one entry,
`{partition: "system", relative_path: "app/Foo.apk", contending_modules:
["a", "b"]}`; and in general the report is sorted by
`(partition, relative_path)`. -/
theorem conflict_report_s4_and_sorted :
    analyzeConflicts planS4 walkS4 =
      [{ partition := "system", relativePath := "app/Foo.apk",
         contendingModules := ["a", "b"] }] ∧
    ∀ (plan : MountPlan) (walk : WalkEnv),
      List.Sorted conflictLe (analyzeConflicts plan walk) := by
  constructor
  · decide
  · intro plan walk
    exact List.sorted_insertionSort conflictLe _

theorem markLoop_some (env : HostEnv) (mp : FPath) :
    ∀ l : List (String × ChildNode), (markLoop env (some mp) l).1 = l := by
  intro l
  induction l with
  | nil => rfl
  | cons p rest ih =>
      obtain ⟨n, c⟩ := p
      unfold markLoop
      by_cases hn : needTmpfs env n c = true
      · simp [hn]
      · simp only [Bool.not_eq_true] at hn
        simp [hn, ih]

theorem markLoop_none (env : HostEnv) :
    ∀ l : List (String × ChildNode), (∀ p ∈ l, p.2.skip = false) →
      markLoop env none l =
        (l.map (fun p => (p.1, { p.2 with skip := needTmpfs env p.1 p.2 })), false) := by
  intro l
  induction l with
  | nil => intro _; rfl
  | cons p rest ih =>
      intro hinit
      obtain ⟨n, c⟩ := p
      obtain ⟨ft, sk⟩ := c
      have hsk : sk = false := hinit (n, ⟨ft, sk⟩) (by simp)
      subst hsk
      have hrest : ∀ p ∈ rest, p.2.skip = false := fun p hp => hinit p (by simp [hp])
      unfold markLoop
      by_cases hn : needTmpfs env n ⟨ft, false⟩ = true
      · simp [hn, ih hrest]
      · simp only [Bool.not_eq_true] at hn
        simp [hn, ih hrest]

/-- Claim C6: in `do_magic_mount` on a Directory node with no enclosing
tmpfs, a child ends with `skip = true` exactly when it would require a tmpfs
synthesis (`needTmpfs`) while the node has no `module_path`; and whenever
any child is marked skip, `create_tmpfs` is not set. -/
theorem map_skip_false_id (env : HostEnv) :
    ∀ l : List (String × ChildNode), (∀ p ∈ l, p.2.skip = false) →
      l.map (fun p => (p.1, { p.2 with skip := needTmpfs env p.1 p.2 && false })) = l := by
  intro l
  induction l with
  | nil => intro _; rfl
  | cons p rest ih =>
      intro hl
      obtain ⟨n, c⟩ := p
      obtain ⟨ft, sk⟩ := c
      have hsk : sk = false := hl (n, ⟨ft, sk⟩) (by simp)
      subst hsk
      have hrest := ih (fun p hp => hl p (by simp [hp]))
      simp only [Bool.and_false] at hrest
      simp only [List.map_cons, Bool.and_false]
      rw [hrest]

/-- Claim C6: in `do_magic_mount` on a Directory node with no enclosing
tmpfs, a child ends with `skip = true` exactly when it would require a tmpfs
synthesis (`needTmpfs`) while the node has no `module_path`; and whenever
any child is marked skip, `create_tmpfs` is not set. -/
theorem magic_skip_iff (env : HostEnv) (node : DirNode)
    (hinit : ∀ p ∈ node.children, p.2.skip = false) :
    (markChildren env node false).1 =
      node.children.map (fun p =>
        (p.1, { p.2 with skip := needTmpfs env p.1 p.2 && node.modulePath.isNone })) ∧
    ((∃ p ∈ (markChildren env node false).1, p.2.skip = true) →
      (markChildren env node false).2 = false) := by
  cases hmp : node.modulePath with
  | none =>
      have hmark : markChildren env node false = markLoop env none node.children := by
        unfold markChildren
        rw [hmp]
        simp
      rw [hmark, markLoop_none env node.children hinit]
      constructor
      · simp
      · intro _
        rfl
  | some mp =>
      have hchildren : (markChildren env node false).1 = node.children := by
        unfold markChildren
        rw [hmp]
        by_cases hr : node.replace = true
        · simp [hr]
        · simp only [Bool.not_eq_true] at hr
          simp [hr, markLoop_some]
      constructor
      · rw [hchildren]
        have hid := map_skip_false_id env node.children hinit
        simp only [Bool.and_false] at hid
        simpa using hid.symm
      · rw [hchildren]
        rintro ⟨p, hp, hskip⟩
        rw [hinit p hp] at hskip
        exact absurd hskip (by simp)

/-- Host environment for the C6 witness. -/
def hostEnvW : HostEnv :=
  { hostExists := fun _ => true, hostLstat := fun _ => some .directory }

/-- A replace-less directory node without module source, holding a symlink
child (tmpfs required) and a matching directory child, for the C6 witness. -/
def nodeNoSource : DirNode :=
  { modulePath := none, replace := false,
    children := [("lib", { fileType := .symlink, skip := false }),
                 ("app", { fileType := .directory, skip := false })] }

/-- Witness for claim C6 at a concrete node. -/
theorem magic_skip_iff_witness :
    (markChildren hostEnvW nodeNoSource false).1 =
      nodeNoSource.children.map (fun p =>
        (p.1, { p.2 with
                  skip := needTmpfs hostEnvW p.1 p.2 && nodeNoSource.modulePath.isNone })) ∧
    ((∃ p ∈ (markChildren hostEnvW nodeNoSource false).1, p.2.skip = true) →
      (markChildren hostEnvW nodeNoSource false).2 = false) :=
  magic_skip_iff hostEnvW nodeNoSource (by decide)

theorem childLoop_error (env : OverlayEnv) (target : String) (du : Bool)
    (mp : String) (e : String) :
    ∀ (children : List String) (acc : List OvAction),
      children.find? (fun c => env.childStockExists c && (errOf (env.childResult c)).isSome)
        = some mp →
      errOf (env.childResult mp) = some e →
      childLoop env target du acc children =
        (acc ++ (if du then [] else [.unmountTarget target]), .error e) := by
  intro children
  induction children with
  | nil =>
      intro acc hfind _
      simp [List.find?] at hfind
  | cons c rest ih =>
      intro acc hfind herr
      by_cases hex : env.childStockExists c = true
      · by_cases hc : (errOf (env.childResult c)).isSome = true
        · have hcm : c = mp := by
            rw [List.find?_cons_of_pos _ (by simp [hex, hc])] at hfind
            exact Option.some_injective _ hfind
          subst hcm
          unfold childLoop
          rw [if_pos hex]
          cases hres : env.childResult c with
          | ok v => rw [hres] at herr; simp [errOf] at herr
          | error e2 =>
              have : e2 = e := by
                rw [hres] at herr
                simpa [errOf] using herr
              rw [this]
        · have hfind2 : rest.find?
              (fun c => env.childStockExists c && (errOf (env.childResult c)).isSome)
                = some mp := by
            rw [List.find?_cons_of_neg _ (by simp [hc])] at hfind
            exact hfind
          unfold childLoop
          rw [if_pos hex]
          cases hres : env.childResult c with
          | ok v => exact ih acc hfind2 herr
          | error e2 =>
              exfalso
              rw [hres] at hc
              simp [errOf] at hc
      · have hfind2 : rest.find?
            (fun c => env.childStockExists c && (errOf (env.childResult c)).isSome)
              = some mp := by
          rw [List.find?_cons_of_neg _ (by simp [hex])] at hfind
          exact hfind
        unfold childLoop
        rw [if_neg hex]
        exact ih acc hfind2 herr

/-- Claim C7: in `mount_overlay`, whenever mounting a child mountpoint under
the target fails, the function unmounts the parent overlay (unless
`disable_umount` is set) and returns that child's error to the caller.  The
failing child is the first one whose stock root exists and whose
`mount_overlay_child` call errors. -/
theorem overlay_child_failure_unmounts (env : OverlayEnv) (target : String)
    (children : List String) (du : Bool) (mp e : String)
    (hchdir : env.chdirOk = true) (hroot : env.rootMountOk = true)
    (hfind : children.find?
      (fun c => env.childStockExists c && (errOf (env.childResult c)).isSome) = some mp)
    (herr : errOf (env.childResult mp) = some e) :
    (mountOverlay env target children du).2 = .error e ∧
    ((OvAction.unmountTarget target) ∈ (mountOverlay env target children du).1 ↔
      du = false) := by
  have hrun : mountOverlay env target children du =
      ([.mountRoot target] ++ (if du then [] else [.unmountTarget target]), .error e) := by
    unfold mountOverlay
    rw [if_neg (by simp [hchdir]), if_neg (by simp [hroot])]
    exact childLoop_error env target du mp e children [.mountRoot target] hfind herr
  rw [hrun]
  refine ⟨rfl, ?_⟩
  cases du with
  | false => simp
  | true => simp

/-- Overlay environment for the C7 witness: the child at `/system/vendor`
fails. -/
def ovEnvW : OverlayEnv :=
  { chdirOk := true, rootMountOk := true, childStockExists := fun _ => true,
    childResult := fun c =>
      if c = "/system/vendor" then .error "EBUSY" else .ok () }

/-- Witness for claim C7 at a concrete child list. -/
theorem overlay_child_failure_unmounts_witness :
    (mountOverlay ovEnvW "/system" ["/system/vendor"] false).2 = .error "EBUSY" ∧
    ((OvAction.unmountTarget "/system") ∈
        (mountOverlay ovEnvW "/system" ["/system/vendor"] false).1 ↔ false = false) :=
  overlay_child_failure_unmounts ovEnvW "/system" ["/system/vendor"] false
    "/system/vendor" "EBUSY" rfl rfl (by decide) (by decide)

theorem mem_insertId_self (s : List String) (x : String) : x ∈ insertId s x := by
  unfold insertId
  by_cases h : x ∈ s
  · rwa [if_pos h]
  · rw [if_neg h]
    exact List.mem_cons_self x s

theorem mem_insertId_of_mem (s : List String) (x y : String) (h : x ∈ s) :
    x ∈ insertId s y := by
  unfold insertId
  by_cases hy : y ∈ s
  · rwa [if_pos hy]
  · rw [if_neg hy]
    exact List.mem_cons_of_mem y h

theorem overlayFold_hymo (cid : String) :
    ∀ (l : List (String × FPath)) (st : PlanAccum),
      ((l.foldl (fun st dirPath =>
          { st with overlayGroups := groupAppend st.overlayGroups dirPath.1 dirPath.2,
                    overlayIds := insertId st.overlayIds cid }) st).hymoOps = st.hymoOps) ∧
      ((l.foldl (fun st dirPath =>
          { st with overlayGroups := groupAppend st.overlayGroups dirPath.1 dirPath.2,
                    overlayIds := insertId st.overlayIds cid }) st).hymoIds = st.hymoIds) := by
  intro l
  induction l with
  | nil => intro st; exact ⟨rfl, rfl⟩
  | cons p rest ih =>
      intro st
      simp only [List.foldl_cons]
      exact ih _

theorem mergeContribution_hymoOps (st : PlanAccum) (c : ModuleContribution) :
    (mergeContribution st c).hymoOps = st.hymoOps ++ c.hymoOps := by
  unfold mergeContribution
  cases hmp : c.magicPath with
  | none =>
      by_cases he : c.hymoOps.isEmpty = true
      · have : c.hymoOps = [] := by simpa using he
        simp [he, (overlayFold_hymo c.id c.overlays st).1, this]
      · simp only [Bool.not_eq_true] at he
        simp [he, (overlayFold_hymo c.id c.overlays st).1]
  | some path =>
      by_cases he : c.hymoOps.isEmpty = true
      · have : c.hymoOps = [] := by simpa using he
        simp [he, (overlayFold_hymo c.id c.overlays _).1, this]
      · simp only [Bool.not_eq_true] at he
        simp [he, (overlayFold_hymo c.id c.overlays _).1]

theorem mergeContribution_hymoIds (st : PlanAccum) (c : ModuleContribution) :
    (mergeContribution st c).hymoIds =
      if c.hymoOps.isEmpty then st.hymoIds else insertId st.hymoIds c.id := by
  unfold mergeContribution
  cases hmp : c.magicPath with
  | none =>
      by_cases he : c.hymoOps.isEmpty = true
      · simp [he, (overlayFold_hymo c.id c.overlays st).2]
      · simp only [Bool.not_eq_true] at he
        simp [he, (overlayFold_hymo c.id c.overlays st).2]
  | some path =>
      by_cases he : c.hymoOps.isEmpty = true
      · simp [he, (overlayFold_hymo c.id c.overlays _).2]
      · simp only [Bool.not_eq_true] at he
        simp [he, (overlayFold_hymo c.id c.overlays _).2]

theorem foldl_merge_hymoOps_mono (contribs : List ModuleContribution) :
    ∀ (st : PlanAccum) (x : HymoOperation), x ∈ st.hymoOps →
      x ∈ (contribs.foldl mergeContribution st).hymoOps := by
  induction contribs with
  | nil => intro st x hx; exact hx
  | cons c rest ih =>
      intro st x hx
      simp only [List.foldl_cons]
      apply ih
      rw [mergeContribution_hymoOps]
      exact List.mem_append_left _ hx

theorem foldl_merge_hymoIds_mono (contribs : List ModuleContribution) :
    ∀ (st : PlanAccum) (x : String), x ∈ st.hymoIds →
      x ∈ (contribs.foldl mergeContribution st).hymoIds := by
  induction contribs with
  | nil => intro st x hx; exact hx
  | cons c rest ih =>
      intro st x hx
      simp only [List.foldl_cons]
      apply ih
      rw [mergeContribution_hymoIds]
      by_cases he : c.hymoOps.isEmpty = true
      · rwa [if_pos he]
      · simp only [Bool.not_eq_true] at he
        rw [if_neg (by simp [he])]
        exact mem_insertId_of_mem _ _ _ hx

theorem foldl_merge_hymo_mem (contribs : List ModuleContribution)
    (c : ModuleContribution) (x : HymoOperation) (hc : c ∈ contribs)
    (hx : x ∈ c.hymoOps) :
    ∀ st : PlanAccum,
      x ∈ (contribs.foldl mergeContribution st).hymoOps ∧
      c.id ∈ (contribs.foldl mergeContribution st).hymoIds := by
  induction contribs with
  | nil => cases hc
  | cons d rest ih =>
      intro st
      rcases List.mem_cons.mp hc with rfl | hcr
      · constructor
        · simp only [List.foldl_cons]
          apply foldl_merge_hymoOps_mono
          rw [mergeContribution_hymoOps]
          exact List.mem_append_right _ hx
        · simp only [List.foldl_cons]
          apply foldl_merge_hymoIds_mono
          rw [mergeContribution_hymoIds]
          have hne : c.hymoOps ≠ [] := List.ne_nil_of_mem hx
          rw [if_neg (by simpa using hne)]
          exact mem_insertId_self _ _
      · exact ih hcr _

/-- Claim C4: for every module whose resolved `default_mode` is Hymo, the
planner emits into the `MountPlan` one `HymoOperation {module_id, source =
content_path/<part>, target = /<part>}` for each candidate partition
directory that exists and is non-empty under `content_path`, carried in
`hymo_ops` alongside the `hymo_module_ids` set. -/
theorem planner_hymo_ops (env : PlannerEnv) (extras : List String)
    (modules : List PModule) (storageRoot : FPath) (m : PModule) (part : String)
    (hm : m ∈ modules) (hmode : m.rules.defaultMode = .hymo)
    (hcontent : env.pathExists (resolvedContent env storageRoot m) = true)
    (hpart : part ∈ targetPartitions extras)
    (hdir : (env.dirSubdirs (resolvedContent env storageRoot m)).contains part = true)
    (hfiles : env.hasFiles (resolvedContent env storageRoot m ++ [part]) = true) :
    ({ moduleId := m.id, source := resolvedContent env storageRoot m ++ [part],
       target := [part] } : HymoOperation) ∈
        (generate env extras modules storageRoot).hymoOps ∧
    m.id ∈ (generate env extras modules storageRoot).hymoModuleIds := by
  set content := resolvedContent env storageRoot m with hcdef
  set op : HymoOperation :=
    { moduleId := m.id, source := content ++ [part], target := [part] } with hopdef
  set ops := (targetPartitions extras).filterMap (fun part =>
      if (env.dirSubdirs content).contains part then
        if env.hasFiles (content ++ [part]) then
          some ({ moduleId := m.id, source := content ++ [part],
                  target := [part] } : HymoOperation)
        else none
      else none) with hopsdef
  have hopmem : op ∈ ops := by
    rw [hopsdef]
    apply List.mem_filterMap.mpr
    exact ⟨part, hpart, by rw [if_pos hdir, if_pos hfiles]⟩
  have hcontrib : moduleContribution env extras storageRoot m =
      some { id := m.id, overlays := [], magicPath := none, hymoOps := ops } := by
    unfold moduleContribution
    rw [← hcdef, if_pos hcontent, if_pos hmode, ← hopsdef]
    rw [if_neg (by simpa using List.ne_nil_of_mem hopmem)]
  have hcmem :
      ({ id := m.id, overlays := [], magicPath := none, hymoOps := ops } :
          ModuleContribution) ∈
        modules.filterMap (moduleContribution env extras storageRoot) :=
    List.mem_filterMap.mpr ⟨m, hm, hcontrib⟩
  have hmain := foldl_merge_hymo_mem
    (modules.filterMap (moduleContribution env extras storageRoot))
    { id := m.id, overlays := [], magicPath := none, hymoOps := ops }
    op hcmem hopmem
    { overlayGroups := [], magicPaths := [], overlayIds := [], magicIds := [],
      hymoOps := [], hymoIds := [] }
  constructor
  · exact hmain.1
  · show m.id ∈ sortStrings _
    unfold sortStrings
    rw [List.mem_insertionSort]
    exact hmain.2

/-- A planner environment for the C4 witness: the storage copy of module
`hm` exists and ships a non-empty `system` partition. -/
def plannerEnvW : PlannerEnv :=
  { pathExists := fun p => p = ["st", "hm"],
    dirSubdirs := fun p => if p = ["st", "hm"] then ["system"] else [],
    hasFiles := fun p => p = ["st", "hm", "system"],
    rootIsSymlink := fun _ => false,
    rootExists := fun _ => true,
    canonicalRoot := fun part => some ("/" ++ part),
    canonicalIsDir := fun _ => true }

/-- A Hymo-mode module for the C4 witness. -/
def moduleHymo : PModule :=
  { id := "hm", sourcePath := ["src", "hm"],
    rules := { defaultMode := .hymo, paths := [] } }

/-- Witness for claim C4 at a concrete module and partition. -/
theorem planner_hymo_ops_witness :
    ({ moduleId := "hm", source := ["st", "hm", "system"],
       target := ["system"] } : HymoOperation) ∈
        (generate plannerEnvW [] [moduleHymo] ["st"]).hymoOps ∧
    "hm" ∈ (generate plannerEnvW [] [moduleHymo] ["st"]).hymoModuleIds := by
  have h := planner_hymo_ops plannerEnvW [] [moduleHymo] ["st"] moduleHymo "system"
    (by decide) rfl (by decide) (by decide) (by decide) (by decide)
  simpa [resolvedContent, plannerEnvW, moduleHymo] using h

/-- Disjointness of two id lists. -/
def IdsDisjoint (a b : List String) : Prop :=
  ∀ x ∈ a, x ∉ b

instance (a b : List String) : Decidable (IdsDisjoint a b) :=
  List.decidableBAll (fun x => x ∉ b) a

/-- A plan splitting one module between overlay and magic, as the planner
emits for a module whose `system` rule is Overlay and whose `vendor` rule is
Magic (spec scenario S2). -/
def planSplit : MountPlan :=
  { overlayOps := [{ partitionName := "system", target := "/system",
                     lowerdirs := [["storage", "m", "system"]] }],
    magicModulePaths := [["storage", "m"]],
    overlayModuleIds := ["m"], magicModuleIds := ["m"],
    hymoOps := [], hymoModuleIds := [] }

/-- An environment in which every mount and injection succeeds. -/
def envAllOk : ExecEnv :=
  { hymoAvailable := true, injectOk := fun _ => true, mountOk := fun _ => true,
    partExists := fun _ => true, magicOk := true }

/-- Counterexample to claim C1: on the split plan with every mount
succeeding, `execute` returns `overlay_module_ids = ["m"]` and
`magic_module_ids = ["m"]`, so the three returned id sets are not pairwise
disjoint. -/
theorem executor_ids_not_pairwise_disjoint :
    ¬ (IdsDisjoint (execute planSplit envAllOk).overlayModuleIds
         (execute planSplit envAllOk).hymoModuleIds ∧
       IdsDisjoint (execute planSplit envAllOk).overlayModuleIds
         (execute planSplit envAllOk).magicModuleIds ∧
       IdsDisjoint (execute planSplit envAllOk).hymoModuleIds
         (execute planSplit envAllOk).magicModuleIds) := by
  decide

theorem mem_removeId (s : List String) (y x : String) :
    x ∈ removeId s y ↔ x ∈ s ∧ x ≠ y := by
  unfold removeId
  simp [List.mem_filter]

theorem mem_insertId_iff (s : List String) (y x : String) :
    x ∈ insertId s y ↔ x ∈ s ∨ x = y := by
  unfold insertId
  by_cases hy : y ∈ s
  · rw [if_pos hy]
    constructor
    · exact Or.inl
    · rintro (h | rfl)
      · exact h
      · exact hy
  · rw [if_neg hy]
    constructor
    · intro h
      rcases List.mem_cons.mp h with rfl | h
      · exact Or.inr rfl
      · exact Or.inl h
    · rintro (h | rfl)
      · exact List.mem_cons_of_mem _ h
      · exact List.mem_cons_self _ _

theorem removeFold_hymo_mem (ops : List HymoOperation) :
    ∀ (s : List String) (x : String),
      x ∈ ops.foldl (fun s op => removeId s op.moduleId) s ↔
        (x ∈ s ∧ ∀ op ∈ ops, op.moduleId ≠ x) := by
  induction ops with
  | nil =>
      intro s x
      simp
  | cons op rest ih =>
      intro s x
      simp only [List.foldl_cons]
      rw [ih]
      rw [mem_removeId]
      constructor
      · rintro ⟨⟨hs, hne⟩, hrest⟩
        refine ⟨hs, ?_⟩
        intro op2 hop2
        rcases List.mem_cons.mp hop2 with rfl | hop2
        · exact fun e => hne e.symm
        · exact hrest op2 hop2
      · rintro ⟨hs, hall⟩
        refine ⟨⟨hs, ?_⟩, ?_⟩
        · exact fun e => hall op (List.mem_cons_self _ _) e.symm
        · intro op2 hop2
          exact hall op2 (List.mem_cons_of_mem _ hop2)

theorem removeFold_str_subset (ids : List String) :
    ∀ (s : List String) (x : String), x ∈ ids.foldl removeId s → x ∈ s := by
  induction ids with
  | nil =>
      intro s x hx
      exact hx
  | cons y rest ih =>
      intro s x hx
      simp only [List.foldl_cons] at hx
      exact ((mem_removeId s y x).mp (ih _ x hx)).1

theorem phase2Step_overlaySet (env : ExecEnv) (st : ExecState) (item : PendingItem) :
    (phase2Step env st item).overlaySet =
      match extractId item.source with
      | some id => insertId st.overlaySet id
      | none => st.overlaySet := by
  unfold phase2Step
  cases hid : extractId item.source <;>
    cases hpre : prependToPartition st.mergedOps item.partitionName item.source <;>
      by_cases hex : env.partExists item.partitionName = true <;>
        cases hroot : extractModuleRoot item.source <;>
          simp [hid, hpre, hex, hroot]

theorem phase2_fold_overlaySet (env : ExecEnv) (items : List PendingItem) :
    ∀ (st : ExecState) (x : String), x ∈ (items.foldl (phase2Step env) st).overlaySet →
      x ∈ st.overlaySet ∨ ∃ item ∈ items, extractId item.source = some x := by
  induction items with
  | nil =>
      intro st x hx
      exact Or.inl hx
  | cons item rest ih =>
      intro st x hx
      simp only [List.foldl_cons] at hx
      rcases ih _ x hx with h | ⟨item2, hitem2, hid2⟩
      · rw [phase2Step_overlaySet] at h
        cases hid : extractId item.source with
        | some id =>
            rw [hid] at h
            rcases (mem_insertId_iff _ _ _).mp h with h | rfl
            · exact Or.inl h
            · exact Or.inr ⟨item, List.mem_cons_self _ _, hid⟩
        | none =>
            rw [hid] at h
            exact Or.inl h
      · exact Or.inr ⟨item2, List.mem_cons_of_mem _ hitem2, hid2⟩

theorem failingHymoOps_subset (env : ExecEnv) (ops : List HymoOperation)
    (op : HymoOperation) (hop : op ∈ failingHymoOps env ops) : op ∈ ops := by
  unfold failingHymoOps at hop
  by_cases ha : env.hymoAvailable = true
  · rw [if_pos ha] at hop
    exact List.mem_of_mem_filter hop
  · rw [if_neg ha] at hop
    exact hop

/-- Claim C1 (amended): after `execute`, `hymo_module_ids` and
`overlay_module_ids` are disjoint, provided they are disjoint in the input
plan and every hymo op's `module_id` names its source's module directory.
(The full pairwise claim fails: `overlay_module_ids` and `magic_module_ids`
can share a module, see the counterexample.) -/
theorem executor_hymo_overlay_disjoint (plan : MountPlan) (env : ExecEnv)
    (hwf : ∀ op ∈ plan.hymoOps, extractId op.source = some op.moduleId)
    (hdisj : IdsDisjoint plan.hymoModuleIds plan.overlayModuleIds) :
    IdsDisjoint (execute plan env).hymoModuleIds (execute plan env).overlayModuleIds := by
  intro x hxh hxo
  have hxh2 : x ∈ execHymoSet plan env := by
    have he : (execute plan env).hymoModuleIds = sortStrings (execHymoSet plan env) := rfl
    rw [he] at hxh
    unfold sortStrings at hxh
    rwa [List.mem_insertionSort] at hxh
  have hxo2 : x ∈ execOverlaySet plan env := by
    have he : (execute plan env).overlayModuleIds = sortStrings (execOverlaySet plan env) := rfl
    rw [he] at hxo
    unfold sortStrings at hxo
    rwa [List.mem_insertionSort] at hxo
  have hh := (removeFold_hymo_mem (failingHymoOps env plan.hymoOps)
    plan.hymoModuleIds x).mp hxh2
  have ho1 : x ∈ (execState1 plan env).overlaySet :=
    removeFold_str_subset (execPhase3 plan env).2 (execState1 plan env).overlaySet x hxo2
  have ho2 := phase2_fold_overlaySet env (hymoFallbacks env plan.hymoOps) _ x ho1
  rcases ho2 with ho2 | ⟨item, hitem, hid⟩
  · exact hdisj x hh.1 ho2
  · obtain ⟨op, hop, rfl⟩ := List.mem_map.mp hitem
    have hsub : op ∈ plan.hymoOps := failingHymoOps_subset env plan.hymoOps op hop
    rw [hwf op hsub] at hid
    exact hh.2 op hop (Option.some_injective _ hid)

/-- A plan with one hymo op, for the C1 witness. -/
def planHymoOnly : MountPlan :=
  { overlayOps := [], magicModulePaths := [], overlayModuleIds := [],
    magicModuleIds := [],
    hymoOps := [{ moduleId := "hm", source := ["storage", "hm", "system"],
                  target := ["system"] }],
    hymoModuleIds := ["hm"] }

/-- An environment in which the injection fails and the module falls back to
overlay. -/
def envInjectFail : ExecEnv :=
  { hymoAvailable := true, injectOk := fun _ => false, mountOk := fun _ => true,
    partExists := fun _ => true, magicOk := true }

/-- Witness for the amended claim C1 at a concrete plan on which the hymo op
fails and falls back to overlay. -/
theorem executor_hymo_overlay_disjoint_witness :
    IdsDisjoint (execute planHymoOnly envInjectFail).hymoModuleIds
      (execute planHymoOnly envInjectFail).overlayModuleIds :=
  executor_hymo_overlay_disjoint planHymoOnly envInjectFail (by decide) (by decide)

end MetaHybrid
